import Mathlib

/-!
A shallow embedding of the `prunefiles` utility (`src/prunefiles/app.py`)
together with proofs about its matching / ordering / retention pipeline.

External collaborators (directory listing, size-string parsing, the regex and
template matching engines, the unlink call) are modelled as parameters; the
decision pipeline itself is translated function by function from the source.
-/

/-- A directory entry as delivered by the filesystem-listing collaborator:
`name` is `path.name`, `stem` is `path.stem` (the extension-stripped name) and
`size` is `path.stat().st_size`.  Only regular files are listed
(`folder.iterdir()` filtered by `path.is_file()`). -/
structure FileEntry where
  name : String
  stem : String
  size : Nat
deriving Repr, DecidableEq

/-- `_PathState`: per-file mutable state of the pipeline.  `__init__` sets
`orderby` to the filename stem, `is_match` to `True` and `prune_reasons`
to the empty list; `name`, `stem` and `size` mirror the underlying path. -/
structure PathState where
  name : String
  stem : String
  size : Nat
  orderby : String
  is_match : Bool
  prune_reasons : List String
deriving Repr, DecidableEq

/-- `_PathState.__init__(path)`. -/
def PathState.init (e : FileEntry) : PathState :=
  { name := e.name, stem := e.stem, size := e.size,
    orderby := e.stem, is_match := true, prune_reasons := [] }

/-- The collaborator-provided part of a `PathState` (what the record denotes
on disk), used to compare report groups against the input listing. -/
def PathState.entry (f : PathState) : FileEntry :=
  { name := f.name, stem := f.stem, size := f.size }

/-- `CountLimiter.__init__(max_count, reason)`; the constructor asserts
`max_count > 0`, which theorems carry as a hypothesis. -/
structure CountLimiter where
  max_count : Nat
  reason : String

/-- `file.prune_reasons.append(self.__reason)` for the count limiter. -/
def CountLimiter.markOne (L : CountLimiter) (f : PathState) : PathState :=
  { f with prune_reasons := f.prune_reasons ++ [L.reason] }

/-- `CountLimiter.apply`: `for file in files[:-max_count]: file.prune_reasons.append(reason)`.
For `max_count > 0` the Python slice `files[:-max_count]` is the first
`len(files) - max_count` elements (empty when `max_count ≥ len(files)`),
which is `files.take (files.length - max_count)` with truncated subtraction. -/
def CountLimiter.apply (L : CountLimiter) (files : List PathState) : List PathState :=
  (files.take (files.length - L.max_count)).map L.markOne
    ++ files.drop (files.length - L.max_count)

/-- `SizeLimiter.__init__(max_size, reason)`; `max_size` is a byte count,
asserted `≥ 0` (automatic for `Nat`). -/
structure SizeLimiter where
  max_size : Nat
  reason : String

/-- `file.prune_reasons.append(self.__reason)` for the size limiter. -/
def SizeLimiter.markOne (L : SizeLimiter) (f : PathState) : PathState :=
  { f with prune_reasons := f.prune_reasons ++ [L.reason] }

/-- The loop body of `SizeLimiter.apply` on the reversed list: `s` is the
running `sum_of_size`; each file adds its size and is marked when the
running sum exceeds `max_size`. -/
def SizeLimiter.markFrom (L : SizeLimiter) : Nat → List PathState → List PathState
  | _, [] => []
  | s, f :: rest =>
      (if L.max_size < s + f.size then L.markOne f else f)
        :: L.markFrom (s + f.size) rest

/-- `SizeLimiter.apply`: walk `reversed(files)` accumulating `sum_of_size`,
appending the reason to every file visited once the sum exceeds `max_size`.
The walk is expressed on `files.reverse`, then the order is restored. -/
def SizeLimiter.apply (L : SizeLimiter) (files : List PathState) : List PathState :=
  (L.markFrom 0 files.reverse).reverse

/-- The two limiter kinds the program can configure. -/
inductive Limiter where
  | count (L : CountLimiter)
  | size (L : SizeLimiter)

/-- `limiter.apply(files)`. -/
def Limiter.applyL : Limiter → List PathState → List PathState
  | .count L, files => L.apply files
  | .size L, files => L.apply files

/-- An abstract matcher (`ParseMatcher` / `RegexMatcher` are built by the
`parse` and `re` collaborator libraries): `matchName` is `matcher.match`,
returning `none` on failure and, on success, a capture-result modelled as a
total map from field name to captured value (`matcher.get_value`). -/
structure Matcher where
  matchName : String → Option (String → String)

/-- The CLI arguments reaching `prune_files` (after typer binding).
`keep_count` is an `Int` because the CLI can pass non-positive values;
`keep_size` is the raw size string, parsed by a collaborator. -/
structure Args where
  match_format : Option String
  match_regex : Option String
  match_case_sensitive : Bool
  orderby : Option String
  order_reverse : Bool
  keep_count : Option Int
  keep_size : Option String
  dry_run : Bool

/-- Python truthiness of an optional string: `None` and `""` are falsy. -/
def strTruthy : Option String → Bool
  | none => false
  | some s => !s.isEmpty

/-- The value of an optional string under Python coalescing (`""` for `None`);
only read where `strTruthy` already holds. -/
def optStr : Option String → String
  | none => ""
  | some s => s

/-- The reason string `f'keep-count <= {keep_count}'`. -/
def countReasonStr (k : Int) : String :=
  "keep-count <= " ++ toString k

/-- The reason string `f'keep-size <= {keep_size}'` (the raw CLI string). -/
def sizeReasonStr (s : String) : String :=
  "keep-size <= " ++ s

/-- The validated configuration produced by the argument-checking phase. -/
structure Config where
  limiters : List Limiter
  matcher : Option Matcher
  orderby : Option String
  order_reverse : Bool
  dry_run : Bool

/-- The `# check args` phase of `prune_files` (lines 103-134), in source
order: the keep-count check, the keep-size parse, then the matcher-conflict
check and matcher construction.  `mkParse` / `mkRegex` are the collaborator
constructors `ParseMatcher` / `RegexMatcher`; `parse_size` is
`humanfriendly.parse_size` (`none` models the `InvalidSize` exception).
`throw 1` models `typer.Exit(1)`. -/
def checkArgs (mkParse mkRegex : String → Bool → Matcher)
    (parse_size : String → Option Nat) (a : Args) : Except Nat Config := do
  let limiters1 : List Limiter ←
    match a.keep_count with
    | none => pure []
    | some k =>
        if 0 < k then pure [Limiter.count ⟨k.toNat, countReasonStr k⟩]
        else throw 1
  let limiters2 : List Limiter ←
    match a.keep_size with
    | none => pure limiters1
    | some s =>
        match parse_size s with
        | none => throw 1
        | some b => pure (limiters1 ++ [Limiter.size ⟨b, sizeReasonStr s⟩])
  if 1 < (if strTruthy a.match_regex then 1 else 0)
        + (if strTruthy a.match_format then 1 else 0) then
    throw 1
  else
    let matcher : Option Matcher :=
      if strTruthy a.match_format then
        some (mkParse (optStr a.match_format) a.match_case_sensitive)
      else if strTruthy a.match_regex then
        some (mkRegex (optStr a.match_regex) a.match_case_sensitive)
      else
        none
    pure { limiters := limiters2, matcher := matcher, orderby := a.orderby,
           order_reverse := a.order_reverse, dry_run := a.dry_run }

/-- `files = [_PathState(path) for path in folder.iterdir() if path.is_file()]`. -/
def collectFiles (listing : List FileEntry) : List PathState :=
  listing.map PathState.init

/-- Python's string comparison: lexicographic order on code points, here on
the character list of the string.  `strLeB a b = true ↔ a ≤ b` is proved
below (`strLeB_iff`). -/
def strLeB (a b : String) : Bool :=
  decide (a.data ≤ b.data)

/-- Stable insertion of one record into an already sorted list: the record
goes in front of the first element it compares `le` to, hence in front of
all elements equivalent to it — the placement a stable sort gives an
element arriving from earlier in the input. -/
def insortOne (le : PathState → PathState → Bool) (a : PathState) :
    List PathState → List PathState
  | [] => [a]
  | b :: bs => if le a b then a :: b :: bs else b :: insortOne le a bs

/-- `list.sort(key=...)` is a stable sort; any two stable sorts agree
extensionally, so it is embedded as a stable insertion sort over the
comparator induced by the key. -/
def stableSort (le : PathState → PathState → Bool) : List PathState → List PathState
  | [] => []
  | a :: rest => insortOne le a (stableSort le rest)

/-- `files.sort(key=lambda x: x.path.name)`: a stable ascending sort by name. -/
def nameSort (files : List PathState) : List PathState :=
  stableSort (fun a b => strLeB a.name b.name) files

/-- The per-record matcher step (lines 146-150): on a match, `orderby` is
replaced with the captured field when the `orderby` option is truthy; after
the conditional, `is_match` is set from the match result. -/
def matchOne (m : Matcher) (ob : Option String) (f : PathState) : PathState :=
  match m.matchName f.name with
  | some res =>
      { f with
        orderby := if strTruthy ob then res (optStr ob) else f.orderby,
        is_match := true }
  | none => { f with is_match := false }

/-- The matcher loop: skipped entirely when no matcher is configured. -/
def matchStep (m : Option Matcher) (ob : Option String) (files : List PathState) :
    List PathState :=
  match m with
  | some m => files.map (matchOne m ob)
  | none => files

/-- `files.sort(key=lambda x: x.orderby, reverse=order_reverse)`: a stable
sort by `orderby`, descending when the reverse flag is set (Python's
`reverse=True` keeps equal elements in their original order). -/
def orderSort (rev : Bool) (files : List PathState) : List PathState :=
  if rev then stableSort (fun a b => strLeB b.orderby a.orderby) files
  else stableSort (fun a b => strLeB a.orderby b.orderby) files

/-- `for limiter in limiters: limiter.apply(files)`. -/
def applyLimiters (ls : List Limiter) (files : List PathState) : List PathState :=
  ls.foldl (fun fs L => L.applyL fs) files

/-- The three report groups of one run. -/
structure Report where
  excluded : List PathState
  keep : List PathState
  remove : List PathState
deriving Repr, DecidableEq

/-- The decision pipeline of `prune_files` (lines 140-173): collect, stable
name sort, matcher, split off non-matches, orderby sort, limiters, and the
keep / remove partition by emptiness of `prune_reasons`. -/
def runPipeline (cfg : Config) (listing : List FileEntry) : Report :=
  let files0 := nameSort (collectFiles listing)
  let files1 := matchStep cfg.matcher cfg.orderby files0
  let excluded := files1.filter fun x => !x.is_match
  let matched := files1.filter fun x => x.is_match
  let limited := applyLimiters cfg.limiters (orderSort cfg.order_reverse matched)
  { excluded := excluded,
    keep := limited.filter fun x => x.prune_reasons.isEmpty,
    remove := limited.filter fun x => !x.prune_reasons.isEmpty }

/-- The removal loop (lines 170-177): each remove-group record is skipped
under `--dry-run`, otherwise unlinked; a failing unlink raises, aborting the
loop.  `fails` models which unlink calls raise.  The result is the list of
names actually deleted and, if the loop aborted, the name it failed on. -/
def deleteLoop (fails : String → Bool) (dry : Bool) :
    List PathState → List String × Option String
  | [] => ([], none)
  | f :: rest =>
      if dry then deleteLoop fails dry rest
      else if fails f.name then ([], some f.name)
      else
        let r := deleteLoop fails dry rest
        (f.name :: r.1, r.2)

/-- How one invocation of the program can end. -/
inductive Outcome where
  | configError (code : Nat)
  | fsError (report : Report) (deleted : List String) (failed : String)
  | ok (report : Report) (deleted : List String)
deriving Repr, DecidableEq

/-- The decision report of an outcome, when the run got past argument
checking. -/
def Outcome.report? : Outcome → Option Report
  | .configError _ => none
  | .fsError r _ _ => some r
  | .ok r _ => some r

/-- The names the run actually deleted. -/
def Outcome.deleted : Outcome → List String
  | .configError _ => []
  | .fsError _ ds _ => ds
  | .ok _ ds => ds

/-- The whole `prune_files` entry point: check arguments, run the decision
pipeline, then perform (or dry-run-skip) the deletions. -/
def prune_files (mkParse mkRegex : String → Bool → Matcher)
    (parse_size : String → Option Nat) (fails : String → Bool)
    (a : Args) (listing : List FileEntry) : Outcome :=
  match checkArgs mkParse mkRegex parse_size a with
  | .error c => .configError c
  | .ok cfg =>
      let r := runPipeline cfg listing
      match deleteLoop fails cfg.dry_run r.remove with
      | (ds, none) => .ok r ds
      | (ds, some f) => .fsError r ds f

/-- The directory contents after a run: the listed entries minus the names
the run deleted. -/
def fsAfter (listing : List FileEntry) (o : Outcome) : List FileEntry :=
  listing.filter fun e => !(o.deleted.contains e.name)

/-- Total size of the records from index `i` on (the cumulative size of the
suffix `files.drop i`). -/
def suffixSizes (files : List PathState) (i : Nat) : Nat :=
  ((files.drop i).map PathState.size).sum

/-- How many records at the front of `l` (the reversed file list, so the
records of largest `orderby`) the size walk leaves unmarked when it starts
with running total `s`. -/
def SizeLimiter.keptLen (L : SizeLimiter) : Nat → List PathState → Nat
  | _, [] => 0
  | s, f :: rest =>
      if L.max_size < s + f.size then 0 else L.keptLen (s + f.size) rest + 1

/-- A record with its accumulated reasons wiped: the part of the state no
pipeline stage after construction ever modifies except the limiters. -/
def PathState.core (f : PathState) : PathState :=
  { f with prune_reasons := [] }

/-- A trivial matcher constructor standing in for the collaborator
libraries in concrete evaluations: it matches nothing. -/
def mkNoneMatcher : String → Bool → Matcher :=
  fun _ _ => { matchName := fun _ => none }

/-- A size parser for concrete evaluations: understands only `"150B"`. -/
def parseSizeFixture : String → Option Nat :=
  fun s => if s = "150B" then some 150 else none

/-- Concrete directory entries used in concrete evaluations. -/
def entryA : FileEntry := { name := "a_1.log", stem := "a_1", size := 100 }

/-- Second concrete directory entry. -/
def entryB : FileEntry := { name := "a_2.log", stem := "a_2", size := 100 }

/-- Third concrete directory entry. -/
def entryC : FileEntry := { name := "a_3.log", stem := "a_3", size := 100 }

/-- A concrete record used in concrete evaluations of the limiters. -/
def recOf (e : FileEntry) : PathState := PathState.init e

/-! ## Size limiter lemmas -/

/-- Once the running total has exceeded the budget, every remaining record
of the walk is marked. -/
theorem SizeLimiter.markFrom_of_gt (L : SizeLimiter) :
    ∀ (l : List PathState) (s : Nat), L.max_size < s →
      L.markFrom s l = l.map L.markOne
  | [], _, _ => rfl
  | f :: rest, s, h => by
      have h1 : L.max_size < s + f.size := Nat.lt_of_lt_of_le h (Nat.le_add_right s f.size)
      simp [SizeLimiter.markFrom, if_pos h1, L.markFrom_of_gt rest (s + f.size) h1]

/-- The walk leaves an unmarked prefix of length `keptLen` and marks the
rest. -/
theorem SizeLimiter.markFrom_eq (L : SizeLimiter) :
    ∀ (l : List PathState) (s : Nat),
      L.markFrom s l =
        l.take (L.keptLen s l) ++ (l.drop (L.keptLen s l)).map L.markOne
  | [], _ => rfl
  | f :: rest, s => by
      by_cases h : L.max_size < s + f.size
      · simp [SizeLimiter.markFrom, SizeLimiter.keptLen, if_pos h,
          L.markFrom_of_gt rest (s + f.size) h]
      · simp [SizeLimiter.markFrom, SizeLimiter.keptLen, if_neg h,
          L.markFrom_eq rest (s + f.size)]

/-- `keptLen` never exceeds the list length. -/
theorem SizeLimiter.keptLen_le (L : SizeLimiter) :
    ∀ (l : List PathState) (s : Nat), L.keptLen s l ≤ l.length
  | [], _ => Nat.le_refl 0
  | f :: rest, s => by
      by_cases h : L.max_size < s + f.size
      · simp [SizeLimiter.keptLen, if_pos h]
      · simp only [SizeLimiter.keptLen, if_neg h, List.length_cons]
        exact Nat.succ_le_succ (L.keptLen_le rest (s + f.size))

/-- The unmarked prefix stays within budget (or is empty). -/
theorem SizeLimiter.keptLen_sum (L : SizeLimiter) :
    ∀ (l : List PathState) (s : Nat),
      s + ((l.take (L.keptLen s l)).map PathState.size).sum ≤ L.max_size ∨
        L.keptLen s l = 0
  | [], s => .inr rfl
  | f :: rest, s => by
      by_cases h : L.max_size < s + f.size
      · exact .inr (by simp [SizeLimiter.keptLen, if_pos h])
      · left
        simp only [SizeLimiter.keptLen, if_neg h, List.take_succ_cons, List.map_cons,
          List.sum_cons]
        rcases L.keptLen_sum rest (s + f.size) with h2 | h2
        · omega
        · rw [h2]
          simp only [List.take_zero, List.map_nil, List.sum_nil]
          omega

/-- If the walk marks anything, then already the first marked record pushes
the running total strictly past the budget. -/
theorem SizeLimiter.keptLen_boundary (L : SizeLimiter) :
    ∀ (l : List PathState) (s : Nat), L.keptLen s l < l.length →
      L.max_size < s + ((l.take (L.keptLen s l + 1)).map PathState.size).sum
  | [], _, h => absurd h (by simp)
  | f :: rest, s, h => by
      by_cases hc : L.max_size < s + f.size
      · simpa [SizeLimiter.keptLen, if_pos hc] using hc
      · simp only [SizeLimiter.keptLen, if_neg hc, List.length_cons] at h ⊢
        have h2 := L.keptLen_boundary rest (s + f.size) (by omega)
        simp only [List.take_succ_cons, List.map_cons, List.sum_cons]
        omega

/-- Prefix sums of sizes are monotone in the prefix length. -/
theorem takeSum_mono :
    ∀ (l : List PathState) (k k' : Nat), k ≤ k' →
      ((l.take k).map PathState.size).sum ≤ ((l.take k').map PathState.size).sum
  | [], _, _, _ => by simp
  | _ :: _, 0, _, _ => by simp
  | f :: rest, k + 1, k' + 1, h => by
      simp only [List.take_succ_cons, List.map_cons, List.sum_cons]
      exact Nat.add_le_add_left (takeSum_mono rest k k' (Nat.le_of_succ_le_succ h)) _

/-- `SizeLimiter.apply` in closed form: the first
`length - keptLen` records (in list order) get the reason appended, the
rest are left alone. -/
theorem SizeLimiter.apply_eq (L : SizeLimiter) (files : List PathState) :
    L.apply files =
      (files.take (files.length - L.keptLen 0 files.reverse)).map L.markOne
        ++ files.drop (files.length - L.keptLen 0 files.reverse) := by
  show (L.markFrom 0 files.reverse).reverse = _
  rw [L.markFrom_eq files.reverse 0]
  simp only [List.reverse_append, List.map_reverse, List.drop_reverse, List.take_reverse,
    List.reverse_reverse, List.length_reverse]

/-- C1.  Size limiter: on a list sorted ascending by `orderby` (sizes are
non-negative by construction), `SizeLimiter.apply` leaves without its reason
exactly the longest suffix whose cumulative size is within `max_size`: there
is a cut position such that every record before it gets the reason appended,
every record from it on is untouched, the suffix at the cut has cumulative
size `≤ max_size` (so a record landing exactly on the boundary is kept), and
every longer suffix — starting with the one adding the first record scanned
backward past the budget — has cumulative size `> max_size`. -/
theorem sizeLimiter_longest_suffix (L : SizeLimiter) (files : List PathState)
    (hsorted : files.Pairwise fun a b => a.orderby ≤ b.orderby) :
    ∃ cut, cut ≤ files.length ∧
      L.apply files = (files.take cut).map L.markOne ++ files.drop cut ∧
      suffixSizes files cut ≤ L.max_size ∧
      ∀ j < cut, L.max_size < suffixSizes files j := by
  refine ⟨files.length - L.keptLen 0 files.reverse, Nat.sub_le _ _, L.apply_eq files, ?_, ?_⟩
  · rcases L.keptLen_sum files.reverse 0 with h | h
    · have hdrop : files.drop (files.length - L.keptLen 0 files.reverse)
          = (files.reverse.take (L.keptLen 0 files.reverse)).reverse := by
        rw [List.take_reverse, List.reverse_reverse]
      rw [suffixSizes, hdrop, List.map_reverse, List.sum_reverse]
      omega
    · rw [h, Nat.sub_zero]
      simp [suffixSizes]
  · intro j hj
    have hlen : L.keptLen 0 files.reverse ≤ files.length := by
      have := L.keptLen_le files.reverse 0
      simpa using this
    have hjlen : j < files.length := by omega
    have hmlt : L.keptLen 0 files.reverse < files.reverse.length := by
      rw [List.length_reverse]; omega
    have hb := L.keptLen_boundary files.reverse 0 hmlt
    have hdrop : files.drop j = (files.reverse.take (files.length - j)).reverse := by
      rw [List.take_reverse, List.reverse_reverse]
      congr 1
      omega
    have hsum : suffixSizes files j
        = ((files.reverse.take (files.length - j)).map PathState.size).sum := by
      rw [suffixSizes, hdrop, List.map_reverse, List.sum_reverse]
    have hmono := takeSum_mono files.reverse (L.keptLen 0 files.reverse + 1)
      (files.length - j) (by omega)
    omega

/-- Concrete run of C1: three 100-byte records, budget 150 — the last record
is kept, the cut sits before the record that pushes the backward sum to 200. -/
theorem sizeLimiter_longest_suffix_witness :
    ∃ cut, cut ≤ [recOf entryA, recOf entryB, recOf entryC].length ∧
      SizeLimiter.apply ⟨150, sizeReasonStr "150B"⟩ [recOf entryA, recOf entryB, recOf entryC]
        = ([recOf entryA, recOf entryB, recOf entryC].take cut).map
            (SizeLimiter.markOne ⟨150, sizeReasonStr "150B"⟩)
          ++ [recOf entryA, recOf entryB, recOf entryC].drop cut ∧
      suffixSizes [recOf entryA, recOf entryB, recOf entryC] cut ≤ 150 ∧
      ∀ j < cut, 150 < suffixSizes [recOf entryA, recOf entryB, recOf entryC] j :=
  sizeLimiter_longest_suffix ⟨150, sizeReasonStr "150B"⟩
    [recOf entryA, recOf entryB, recOf entryC]
    (by simp only [String.le_iff_toList_le]; decide)

/-! ## Count limiter (C2) -/

/-- C2.  Count limiter: on `N` records sorted ascending by `orderby` with
`max_count = K > 0`, `CountLimiter.apply` keeps the length, appends its
reason to nothing when `K ≥ N`, and otherwise appends its reason to exactly
the first `N - K` records — which, by the sort, are the records of smallest
`orderby` — leaving the last `K` untouched. -/
theorem countLimiter_prunes_all_but_last (L : CountLimiter) (files : List PathState)
    (hpos : 0 < L.max_count)
    (hsorted : files.Pairwise fun a b => a.orderby ≤ b.orderby) :
    (L.apply files).length = files.length ∧
    (files.length ≤ L.max_count → L.apply files = files) ∧
    (L.apply files).take (files.length - L.max_count)
      = (files.take (files.length - L.max_count)).map L.markOne ∧
    (L.apply files).drop (files.length - L.max_count)
      = files.drop (files.length - L.max_count) ∧
    ∀ f ∈ files.take (files.length - L.max_count),
      ∀ g ∈ files.drop (files.length - L.max_count), f.orderby ≤ g.orderby := by
  have hlen : ((files.take (files.length - L.max_count)).map L.markOne).length
      = files.length - L.max_count := by
    simp [List.length_take]
  refine ⟨?_, ?_, ?_, ?_, ?_⟩
  · simp only [CountLimiter.apply, List.length_append, List.length_map, List.length_take,
      List.length_drop]
    omega
  · intro h
    have h0 : files.length - L.max_count = 0 := by omega
    simp [CountLimiter.apply, h0]
  · rw [CountLimiter.apply, List.take_left' hlen]
  · rw [CountLimiter.apply, List.drop_left' hlen]
  · have hsplit := hsorted
    rw [← List.take_append_drop (files.length - L.max_count) files] at hsplit
    exact (List.pairwise_append.mp hsplit).2.2

/-- Concrete run of C2: three records, `keep-count = 2` — only the
first-sorted record gets the reason. -/
theorem countLimiter_prunes_all_but_last_witness :
    (CountLimiter.apply ⟨2, countReasonStr 2⟩ [recOf entryA, recOf entryB, recOf entryC]).length
        = [recOf entryA, recOf entryB, recOf entryC].length ∧
    ([recOf entryA, recOf entryB, recOf entryC].length ≤ 2 →
      CountLimiter.apply ⟨2, countReasonStr 2⟩ [recOf entryA, recOf entryB, recOf entryC]
        = [recOf entryA, recOf entryB, recOf entryC]) ∧
    (CountLimiter.apply ⟨2, countReasonStr 2⟩ [recOf entryA, recOf entryB, recOf entryC]).take
        ([recOf entryA, recOf entryB, recOf entryC].length - 2)
      = ([recOf entryA, recOf entryB, recOf entryC].take
          ([recOf entryA, recOf entryB, recOf entryC].length - 2)).map
          (CountLimiter.markOne ⟨2, countReasonStr 2⟩) ∧
    (CountLimiter.apply ⟨2, countReasonStr 2⟩ [recOf entryA, recOf entryB, recOf entryC]).drop
        ([recOf entryA, recOf entryB, recOf entryC].length - 2)
      = [recOf entryA, recOf entryB, recOf entryC].drop
          ([recOf entryA, recOf entryB, recOf entryC].length - 2) ∧
    ∀ f ∈ [recOf entryA, recOf entryB, recOf entryC].take
        ([recOf entryA, recOf entryB, recOf entryC].length - 2),
      ∀ g ∈ [recOf entryA, recOf entryB, recOf entryC].drop
          ([recOf entryA, recOf entryB, recOf entryC].length - 2), f.orderby ≤ g.orderby :=
  countLimiter_prunes_all_but_last ⟨2, countReasonStr 2⟩
    [recOf entryA, recOf entryB, recOf entryC] (by decide)
    (by simp only [String.le_iff_toList_le]; decide)

/-! ## Stable sort lemmas -/

/-- `strLeB` is Python's (and Lean's) string order. -/
theorem strLeB_iff (a b : String) : strLeB a b = true ↔ a ≤ b := by
  rw [strLeB, decide_eq_true_iff]
  exact String.le_iff_toList_le.symm

/-- `strLeB` is total. -/
theorem strLeB_total (a b : String) : strLeB a b = true ∨ strLeB b a = true := by
  rw [strLeB_iff, strLeB_iff]
  exact le_total a b

/-- `strLeB` is transitive. -/
theorem strLeB_trans {a b c : String} (h1 : strLeB a b = true) (h2 : strLeB b c = true) :
    strLeB a c = true := by
  rw [strLeB_iff] at h1 h2 ⊢
  exact le_trans h1 h2

/-- `strLeB` is antisymmetric. -/
theorem strLeB_antisymm {a b : String} (h1 : strLeB a b = true) (h2 : strLeB b a = true) :
    a = b := by
  rw [strLeB_iff] at h1 h2
  exact le_antisymm h1 h2

/-- `strLeB` is reflexive. -/
theorem strLeB_refl (a : String) : strLeB a a = true := by
  rw [strLeB_iff]

/-- Membership in a stable insertion. -/
theorem mem_insortOne {le : PathState → PathState → Bool} {a x : PathState} :
    ∀ {l : List PathState}, x ∈ insortOne le a l ↔ x = a ∨ x ∈ l
  | [] => by simp [insortOne]
  | b :: bs => by
      by_cases h : le a b
      · simp [insortOne, if_pos h]
      · simp only [insortOne, if_neg h, List.mem_cons, mem_insortOne (l := bs)]
        tauto

/-- A stable insertion is a permutation of consing. -/
theorem insortOne_perm (le : PathState → PathState → Bool) (a : PathState) :
    ∀ l : List PathState, List.Perm (insortOne le a l) (a :: l)
  | [] => List.Perm.refl _
  | b :: bs => by
      by_cases h : le a b
      · rw [insortOne, if_pos h]
      · rw [insortOne, if_neg h]
        exact ((insortOne_perm le a bs).cons b).trans (List.Perm.swap a b bs)

/-- A stable sort permutes its input. -/
theorem stableSort_perm (le : PathState → PathState → Bool) :
    ∀ l : List PathState, List.Perm (stableSort le l) l
  | [] => List.Perm.refl _
  | a :: rest =>
      (insortOne_perm le a (stableSort le rest)).trans ((stableSort_perm le rest).cons a)

/-- Inserting into a sorted list keeps it sorted (for a total, transitive
comparator). -/
theorem pairwise_insortOne {le : PathState → PathState → Bool}
    (htotal : ∀ a b, le a b = true ∨ le b a = true)
    (htrans : ∀ {a b c}, le a b = true → le b c = true → le a c = true)
    (a : PathState) :
    ∀ {l : List PathState}, l.Pairwise (fun x y => le x y = true) →
      (insortOne le a l).Pairwise (fun x y => le x y = true)
  | [], _ => by simp [insortOne]
  | b :: bs, h => by
      rcases List.pairwise_cons.mp h with ⟨hb, hbs⟩
      by_cases hab : le a b
      · rw [insortOne, if_pos hab]
        refine List.pairwise_cons.mpr ⟨?_, h⟩
        intro x hx
        rcases List.mem_cons.mp hx with rfl | hx
        · exact hab
        · exact htrans hab (hb x hx)
      · rw [insortOne, if_neg hab]
        refine List.pairwise_cons.mpr ⟨?_, pairwise_insortOne htotal htrans a hbs⟩
        intro x hx
        rcases mem_insortOne.mp hx with rfl | hx
        · rcases htotal x b with h1 | h1
          · exact absurd h1 hab
          · exact h1
        · exact hb x hx

/-- A stable sort sorts (for a total, transitive comparator). -/
theorem stableSort_sorted {le : PathState → PathState → Bool}
    (htotal : ∀ a b, le a b = true ∨ le b a = true)
    (htrans : ∀ {a b c}, le a b = true → le b c = true → le a c = true) :
    ∀ l : List PathState, (stableSort le l).Pairwise (fun x y => le x y = true)
  | [] => List.Pairwise.nil
  | a :: rest =>
      pairwise_insortOne htotal htrans a (stableSort_sorted htotal htrans rest)

/-- Inserting a record of the filtered class puts it in front of the class:
the insertion point cannot lie past a class member. -/
theorem filter_insortOne_pos {le : PathState → PathState → Bool} {p : PathState → Bool}
    {a : PathState} (hp : ∀ b, p b = true → le a b = true) (ha : p a = true) :
    ∀ l : List PathState, (insortOne le a l).filter p = a :: l.filter p
  | [] => by simp [insortOne, ha]
  | b :: bs => by
      by_cases h : le a b
      · simp [insortOne, if_pos h, ha]
      · have hpb : p b = false := by
          cases hpb : p b
          · rfl
          · exact absurd (hp b hpb) h
        simp [insortOne, if_neg h, hpb, filter_insortOne_pos hp ha bs]

/-- Inserting a record outside the filtered class leaves the class alone. -/
theorem filter_insortOne_neg {le : PathState → PathState → Bool} {p : PathState → Bool}
    {a : PathState} (ha : p a = false) :
    ∀ l : List PathState, (insortOne le a l).filter p = l.filter p
  | [] => by simp [insortOne, ha]
  | b :: bs => by
      by_cases h : le a b
      · simp [insortOne, if_pos h, ha]
      · by_cases hpb : p b
        · simp [insortOne, if_neg h, hpb, filter_insortOne_neg ha bs]
        · simp only [Bool.not_eq_true] at hpb
          simp [insortOne, if_neg h, hpb, filter_insortOne_neg ha bs]

/-- Stability: a stable sort does not reorder a class of records that are
pairwise `le`-equivalent (here: a class selected by `p` whose members all
compare `le` to each other). -/
theorem stableSort_filter {le : PathState → PathState → Bool} {p : PathState → Bool}
    (hp : ∀ x y, p x = true → p y = true → le x y = true) :
    ∀ l : List PathState, (stableSort le l).filter p = l.filter p
  | [] => rfl
  | a :: rest => by
      by_cases ha : p a
      · rw [stableSort, filter_insortOne_pos (fun b hb => hp a b ha hb) ha,
          stableSort_filter hp rest, List.filter_cons_of_pos ha]
      · simp only [Bool.not_eq_true] at ha
        rw [stableSort, filter_insortOne_neg ha, stableSort_filter hp rest,
          List.filter_cons_of_neg (by simp [ha])]

/-- If every `orderby`-class of `l` is pairwise `r`-related, then any two
records of `l` with equal `orderby` are `r`-related in order. -/
theorem pairwise_of_filter_classes {l : List PathState} {r : PathState → PathState → Prop}
    (h : ∀ v : String, (l.filter fun x => decide (x.orderby = v)).Pairwise r) :
    l.Pairwise fun a b => a.orderby = b.orderby → r a b := by
  induction l with
  | nil => exact List.Pairwise.nil
  | cons a tl ih =>
      refine List.pairwise_cons.mpr ⟨?_, ih fun v => ?_⟩
      · intro b hb hab
        have h1 := h a.orderby
        rw [List.filter_cons_of_pos (by simp)] at h1
        exact (List.pairwise_cons.mp h1).1 b (List.mem_filter.mpr ⟨hb, by simp [hab]⟩)
      · have h1 := h v
        by_cases hv : a.orderby = v
        · rw [List.filter_cons_of_pos (by simp [hv])] at h1
          exact (List.pairwise_cons.mp h1).2
        · rwa [List.filter_cons_of_neg (by simp [hv])] at h1

/-! ## Pipeline preservation lemmas -/

/-- The size limiter only appends reasons: record cores are unchanged,
in place. -/
theorem SizeLimiter.sizeApply_map_core (L : SizeLimiter) (files : List PathState) :
    (L.apply files).map PathState.core = files.map PathState.core := by
  rw [L.apply_eq, List.map_append, List.map_map]
  have hcomp : PathState.core ∘ L.markOne = PathState.core := funext fun f => rfl
  rw [hcomp, ← List.map_append, List.take_append_drop]

/-- The count limiter only appends reasons: record cores are unchanged,
in place. -/
theorem CountLimiter.countApply_map_core (L : CountLimiter) (files : List PathState) :
    (L.apply files).map PathState.core = files.map PathState.core := by
  rw [CountLimiter.apply, List.map_append, List.map_map]
  have hcomp : PathState.core ∘ L.markOne = PathState.core := funext fun f => rfl
  rw [hcomp, ← List.map_append, List.take_append_drop]

/-- Either limiter only appends reasons. -/
theorem Limiter.applyL_map_core (L : Limiter) (files : List PathState) :
    (L.applyL files).map PathState.core = files.map PathState.core := by
  cases L with
  | count L => exact L.countApply_map_core files
  | size L => exact L.sizeApply_map_core files

/-- The limiter loop only appends reasons. -/
theorem applyLimiters_map_core :
    ∀ (ls : List Limiter) (files : List PathState),
      (applyLimiters ls files).map PathState.core = files.map PathState.core
  | [], _ => rfl
  | L :: ls, files => by
      rw [applyLimiters, List.foldl_cons]
      rw [show List.foldl (fun fs l => l.applyL fs) (L.applyL files) ls
            = applyLimiters ls (L.applyL files) from rfl]
      rw [applyLimiters_map_core ls (L.applyL files), L.applyL_map_core files]

/-- Every record coming out of the limiter loop is a record that went in,
with possibly more reasons. -/
theorem mem_applyLimiters_core {ls : List Limiter} {files : List PathState}
    {f : PathState} (hf : f ∈ applyLimiters ls files) :
    ∃ g ∈ files, f.core = g.core := by
  have h1 : f.core ∈ (applyLimiters ls files).map PathState.core :=
    List.mem_map_of_mem PathState.core hf
  rw [applyLimiters_map_core] at h1
  rcases List.mem_map.mp h1 with ⟨g, hg, hge⟩
  exact ⟨g, hg, hge.symm⟩

/-- Equal cores mean equal everything except the reason list. -/
theorem core_fields {f g : PathState} (h : f.core = g.core) :
    f.name = g.name ∧ f.stem = g.stem ∧ f.size = g.size ∧
      f.orderby = g.orderby ∧ f.is_match = g.is_match := by
  rcases f with ⟨n, st, sz, ob, im, pr⟩
  rcases g with ⟨n', st', sz', ob', im', pr'⟩
  simp only [PathState.core, PathState.mk.injEq] at h
  simp_all

/-- The entry of a record only depends on its core. -/
theorem entry_core (f : PathState) : f.core.entry = f.entry := rfl

/-- The matcher step changes neither the underlying entry nor the reasons:
it only sets `is_match` and possibly `orderby`. -/
theorem matchOne_entry (m : Matcher) (ob : Option String) (f : PathState) :
    (matchOne m ob f).entry = f.entry := by
  rw [matchOne]
  cases m.matchName f.name <;> rfl

/-- The matcher step leaves `prune_reasons` alone. -/
theorem matchOne_reasons (m : Matcher) (ob : Option String) (f : PathState) :
    (matchOne m ob f).prune_reasons = f.prune_reasons := by
  rw [matchOne]
  cases m.matchName f.name <;> rfl

/-- The matcher step preserves underlying entries pointwise. -/
theorem matchStep_map_entry (m : Option Matcher) (ob : Option String)
    (files : List PathState) :
    (matchStep m ob files).map PathState.entry = files.map PathState.entry := by
  cases m with
  | none => rfl
  | some m =>
      rw [matchStep, List.map_map]
      exact List.map_congr_left fun f _ => matchOne_entry m ob f

/-- Records of the name-sorted collection are exactly the listing. -/
theorem collectFiles_map_entry (listing : List FileEntry) :
    (collectFiles listing).map PathState.entry = listing := by
  rw [collectFiles, List.map_map]
  exact (List.map_congr_left fun e _ => rfl).trans (List.map_id listing)

/-- The orderby sort permutes its input (either direction). -/
theorem orderSort_perm (rev : Bool) (files : List PathState) :
    List.Perm (orderSort rev files) files := by
  cases rev with
  | false => exact stableSort_perm _ files
  | true => exact stableSort_perm _ files

/-- Equal core maps give equal entry maps. -/
theorem map_entry_of_map_core {l l' : List PathState}
    (h : l.map PathState.core = l'.map PathState.core) :
    l.map PathState.entry = l'.map PathState.entry := by
  have h2 := congrArg (List.map PathState.entry) h
  have h3 : PathState.entry ∘ PathState.core = PathState.entry := funext fun f => rfl
  rwa [List.map_map, List.map_map, h3] at h2

/-- The filter / sort / limit / partition part of the pipeline loses and
duplicates no record. -/
theorem partition_helper (ls : List Limiter) (rev : Bool) (F : List PathState) :
    List.Perm
      (((F.filter fun x => !x.is_match)
          ++ ((applyLimiters ls (orderSort rev (F.filter fun x => x.is_match))).filter
                (fun x => x.prune_reasons.isEmpty)
              ++ (applyLimiters ls (orderSort rev (F.filter fun x => x.is_match))).filter
                (fun x => !x.prune_reasons.isEmpty))).map PathState.entry)
      (F.map PathState.entry) := by
  have h1 := List.filter_append_perm (fun x => x.prune_reasons.isEmpty)
    (applyLimiters ls (orderSort rev (F.filter fun x => x.is_match)))
  have h2 : (applyLimiters ls (orderSort rev (F.filter fun x => x.is_match))).map
        PathState.entry
      = (orderSort rev (F.filter fun x => x.is_match)).map PathState.entry :=
    map_entry_of_map_core (applyLimiters_map_core _ _)
  have h3 := (orderSort_perm rev (F.filter fun x => x.is_match)).map PathState.entry
  rw [List.map_append, List.map_append]
  have h1e := h1.map PathState.entry
  rw [List.map_append] at h1e
  have step2 := h3
  rw [← h2] at step2
  have h4 : List.Perm ((F.filter fun x => !x.is_match) ++ (F.filter fun x => x.is_match)) F := by
    have h5 := List.filter_append_perm (fun x => x.is_match) F
    exact List.perm_append_comm.trans h5
  have h4e := h4.map PathState.entry
  rw [List.map_append] at h4e
  exact ((h1e.trans step2).append_left _).trans h4e

/-- C3.  Partition: over any listing and configuration, the three report
groups — excluded, kept, removed — together contain each input record
exactly once: their concatenation, read back as directory entries, is a
permutation of the input listing (so no record is duplicated or lost and
none lands in two groups). -/
theorem partition_exactly_once (cfg : Config) (listing : List FileEntry) :
    List.Perm
      (((runPipeline cfg listing).excluded
          ++ ((runPipeline cfg listing).keep ++ (runPipeline cfg listing).remove)).map
        PathState.entry)
      listing := by
  have h := partition_helper cfg.limiters cfg.order_reverse
    (matchStep cfg.matcher cfg.orderby (nameSort (collectFiles listing)))
  have hF : (matchStep cfg.matcher cfg.orderby (nameSort (collectFiles listing))).map
        PathState.entry
      = (nameSort (collectFiles listing)).map PathState.entry :=
    matchStep_map_entry _ _ _
  have hN := (stableSort_perm (fun a b => strLeB a.name b.name)
    (collectFiles listing)).map PathState.entry
  rw [collectFiles_map_entry] at hN
  exact h.trans (hF ▸ ((List.Perm.refl _).trans hN))

/-! ## Tie-break ordering (C5) -/

/-- A stable sort whose comparator holds on each `orderby`-class keeps any
relation the input's classes already satisfy. -/
theorem stableSort_tiebreak {le : PathState → PathState → Bool}
    (hequiv : ∀ a b : PathState, a.orderby = b.orderby → le a b = true)
    (files : List PathState)
    (hname : files.Pairwise fun a b => a.name ≤ b.name) :
    (stableSort le files).Pairwise fun a b => a.orderby = b.orderby → a.name ≤ b.name := by
  apply pairwise_of_filter_classes
  intro v
  rw [@stableSort_filter le (fun x => decide (x.orderby = v))
    (fun x y hx hy => hequiv x y (by simp at hx hy; rw [hx, hy]))]
  exact hname.sublist (List.filter_sublist files)

/-- The name sort produces a list sorted ascending by name. -/
theorem nameSort_sorted (files : List PathState) :
    (nameSort files).Pairwise fun a b => a.name ≤ b.name := by
  have h := @stableSort_sorted (fun a b => strLeB a.name b.name)
    (fun a b => strLeB_total a.name b.name)
    (fun {a b c} h1 h2 => strLeB_trans h1 h2) files
  exact h.imp fun hab => (strLeB_iff _ _).mp hab

/-- C5.  Tie-break ordering: after the `orderby` sort — ascending, or
descending under the reverse flag — any two records with equal `orderby`
appear in ascending filename order, the order established by the earlier
stable name sort. -/
theorem tiebreak_by_name (rev : Bool) (files : List PathState) :
    (orderSort rev (nameSort files)).Pairwise
      fun a b => a.orderby = b.orderby → a.name ≤ b.name := by
  have hname := nameSort_sorted files
  cases rev with
  | false =>
      exact stableSort_tiebreak
        (fun a b hab => by rw [hab]; exact strLeB_refl _) (nameSort files) hname
  | true =>
      exact stableSort_tiebreak
        (fun a b hab => by rw [hab]; exact strLeB_refl _) (nameSort files) hname

/-! ## No matcher configured (C7) -/

/-- C7.  No matcher: when no matcher is configured, every record stays
`is_match = true`, the excluded group is empty, and every reported record's
`orderby` is its filename stem — whatever the `orderby` option says. -/
theorem no_matcher_all_match (cfg : Config) (listing : List FileEntry)
    (h : cfg.matcher = none) :
    (runPipeline cfg listing).excluded = [] ∧
    ∀ f ∈ (runPipeline cfg listing).keep ++ (runPipeline cfg listing).remove,
      f.is_match = true ∧ f.orderby = f.stem := by
  have hstage : ∀ g ∈ nameSort (collectFiles listing),
      g.is_match = true ∧ g.orderby = g.stem ∧ g.prune_reasons = [] := by
    intro g hg
    have hg2 : g ∈ collectFiles listing := (stableSort_perm _ _).mem_iff.mp hg
    rcases List.mem_map.mp hg2 with ⟨e, _, rfl⟩
    exact ⟨rfl, rfl, rfl⟩
  have hfiles1 : matchStep cfg.matcher cfg.orderby (nameSort (collectFiles listing))
      = nameSort (collectFiles listing) := by rw [h]; rfl
  have hexc : (runPipeline cfg listing).excluded
      = (matchStep cfg.matcher cfg.orderby (nameSort (collectFiles listing))).filter
          (fun x => !x.is_match) := rfl
  have hkeep : (runPipeline cfg listing).keep
      = (applyLimiters cfg.limiters (orderSort cfg.order_reverse
          ((matchStep cfg.matcher cfg.orderby (nameSort (collectFiles listing))).filter
            (fun x => x.is_match)))).filter (fun x => x.prune_reasons.isEmpty) := rfl
  have hrem : (runPipeline cfg listing).remove
      = (applyLimiters cfg.limiters (orderSort cfg.order_reverse
          ((matchStep cfg.matcher cfg.orderby (nameSort (collectFiles listing))).filter
            (fun x => x.is_match)))).filter (fun x => !x.prune_reasons.isEmpty) := rfl
  have hmem : ∀ f, f ∈ applyLimiters cfg.limiters (orderSort cfg.order_reverse
      ((matchStep cfg.matcher cfg.orderby (nameSort (collectFiles listing))).filter
        (fun x => x.is_match))) → f.is_match = true ∧ f.orderby = f.stem := by
    intro f hf
    rcases mem_applyLimiters_core hf with ⟨g, hg, hcore⟩
    have hg2 := (orderSort_perm _ _).mem_iff.mp hg
    rw [hfiles1] at hg2
    have hg3 := List.mem_of_mem_filter hg2
    rcases hstage g hg3 with ⟨h1, h2, _⟩
    rcases core_fields hcore with ⟨_, hs, _, ho, hi⟩
    exact ⟨hi.trans h1, (ho.trans h2).trans hs.symm⟩
  refine ⟨?_, ?_⟩
  · rw [hexc, hfiles1]
    apply List.filter_eq_nil_iff.mpr
    intro g hg
    simp [(hstage g hg).1]
  · intro f hf
    rcases List.mem_append.mp hf with hf | hf
    · rw [hkeep] at hf
      exact hmem f (List.mem_of_mem_filter hf)
    · rw [hrem] at hf
      exact hmem f (List.mem_of_mem_filter hf)

/-- Concrete run of C7: a matcher-less configuration with an `orderby`
option set — nothing is excluded and `orderby` stays the stem. -/
theorem no_matcher_all_match_witness :
    (runPipeline ⟨[], none, some "n", false, false⟩ [entryA, entryB]).excluded = [] ∧
    ∀ f ∈ (runPipeline ⟨[], none, some "n", false, false⟩ [entryA, entryB]).keep
        ++ (runPipeline ⟨[], none, some "n", false, false⟩ [entryA, entryB]).remove,
      f.is_match = true ∧ f.orderby = f.stem :=
  no_matcher_all_match ⟨[], none, some "n", false, false⟩ [entryA, entryB] rfl

/-! ## Determinism / enumeration-order independence (C9) -/

/-- The baseline name sort normalises enumeration order: two listings that
are permutations of each other (with distinct filenames, as directory
entries have) name-sort to the same record list. -/
theorem nameSort_eq_of_perm {l1 l2 : List FileEntry} (hperm : List.Perm l1 l2)
    (hnodup : (l1.map FileEntry.name).Nodup) :
    nameSort (collectFiles l1) = nameSort (collectFiles l2) := by
  have hc : List.Perm (collectFiles l1) (collectFiles l2) := hperm.map PathState.init
  have hperm12 : List.Perm (nameSort (collectFiles l1)) (nameSort (collectFiles l2)) :=
    ((stableSort_perm _ _).trans hc).trans (stableSort_perm _ _).symm
  have hmapname : ∀ l : List FileEntry,
      (collectFiles l).map PathState.name = l.map FileEntry.name := by
    intro l
    rw [collectFiles, List.map_map]
    exact List.map_congr_left fun e _ => rfl
  have hn1 : ((nameSort (collectFiles l1)).map PathState.name).Nodup := by
    have hp : List.Perm ((nameSort (collectFiles l1)).map PathState.name)
        ((collectFiles l1).map PathState.name) := (stableSort_perm _ _).map _
    rw [hmapname l1] at hp
    exact hp.nodup_iff.mpr hnodup
  have hn2 : ((nameSort (collectFiles l2)).map PathState.name).Nodup :=
    (hperm12.map PathState.name).nodup_iff.mp hn1
  have hstrict : ∀ {l : List PathState}, (l.map PathState.name).Nodup →
      l.Pairwise (fun a b => a.name ≤ b.name) →
      l.Pairwise (fun a b => a.name < b.name) := by
    intro l hn hle
    have hne : l.Pairwise (fun a b => a.name ≠ b.name) := List.pairwise_map.mp hn
    exact (hle.and hne).imp fun h => lt_of_le_of_ne h.1 h.2
  have hst1 := hstrict hn1 (nameSort_sorted (collectFiles l1))
  have hst2 := hstrict hn2 (nameSort_sorted (collectFiles l2))
  exact @List.eq_of_perm_of_sorted PathState (fun a b => a.name < b.name)
    ⟨fun _ _ h1 h2 => absurd h2 (lt_asymm h1)⟩ _ _ hperm12 hst1 hst2

/-- C9.  Determinism: the pipeline's report — excluded, kept and removed
groups with their `orderby` assignments — does not depend on the order in
which the directory-listing collaborator enumerates the entries: any two
enumerations of the same snapshot (a set of entries with distinct
filenames) produce identical reports. -/
theorem report_enumeration_invariant (cfg : Config) (l1 l2 : List FileEntry)
    (hperm : List.Perm l1 l2) (hnodup : (l1.map FileEntry.name).Nodup) :
    runPipeline cfg l1 = runPipeline cfg l2 := by
  have hkey := nameSort_eq_of_perm hperm hnodup
  simp only [runPipeline, hkey]

/-- Concrete run of C9: two enumeration orders of the same two files give
the same report. -/
theorem report_enumeration_invariant_witness :
    runPipeline ⟨[Limiter.count ⟨1, countReasonStr 1⟩], none, none, false, false⟩
        [entryA, entryB]
      = runPipeline ⟨[Limiter.count ⟨1, countReasonStr 1⟩], none, none, false, false⟩
        [entryB, entryA] :=
  report_enumeration_invariant ⟨[Limiter.count ⟨1, countReasonStr 1⟩], none, none, false, false⟩
    [entryA, entryB] [entryB, entryA] (List.Perm.swap entryB entryA []) (by decide)

/-! ## Argument checking (C6) -/

/-- Any of the three configuration errors makes the check phase exit with
code 1, whatever else the arguments say. -/
theorem checkArgs_error (mkP mkR : String → Bool → Matcher) (ps : String → Option Nat)
    (a : Args)
    (h : (∃ k, a.keep_count = some k ∧ k ≤ 0)
       ∨ (∃ s, a.keep_size = some s ∧ ps s = none)
       ∨ (strTruthy a.match_format = true ∧ strTruthy a.match_regex = true)) :
    checkArgs mkP mkR ps a = .error 1 := by
  rcases h with ⟨k, hk, hk0⟩ | ⟨s, hs, hps⟩ | ⟨hf, hr⟩
  · simp [checkArgs, hk, if_neg (not_lt.mpr hk0), throw, throwThe, MonadExceptOf.throw,
      Bind.bind, Except.bind]
  · unfold checkArgs
    cases hkc : a.keep_count with
    | none =>
        simp [hs, hps, throw, throwThe, MonadExceptOf.throw, Bind.bind, Except.bind,
          pure, Except.pure]
    | some k =>
        by_cases hk : 0 < k
        · simp [if_pos hk, hs, hps, throw, throwThe, MonadExceptOf.throw, Bind.bind,
            Except.bind, pure, Except.pure]
        · simp [if_neg hk, throw, throwThe, MonadExceptOf.throw, Bind.bind, Except.bind]
  · unfold checkArgs
    have hcond : 1 < (if strTruthy a.match_regex then 1 else 0)
        + (if strTruthy a.match_format then 1 else 0) := by
      rw [hf, hr]
      simp
    cases hkc : a.keep_count with
    | none =>
        cases hks : a.keep_size with
        | none =>
            simp [hcond, throw, throwThe, MonadExceptOf.throw, Bind.bind, Except.bind,
              pure, Except.pure]
        | some s =>
            cases hps : ps s with
            | none =>
                simp [hps, throw, throwThe, MonadExceptOf.throw, Bind.bind, Except.bind,
                  pure, Except.pure]
            | some b =>
                simp [hps, hcond, throw, throwThe, MonadExceptOf.throw, Bind.bind,
                  Except.bind, pure, Except.pure]
    | some k =>
        by_cases hk : 0 < k
        · cases hks : a.keep_size with
          | none =>
              simp [if_pos hk, hcond, throw, throwThe, MonadExceptOf.throw, Bind.bind,
                Except.bind, pure, Except.pure]
          | some s =>
              cases hps : ps s with
              | none =>
                  simp [if_pos hk, hps, throw, throwThe, MonadExceptOf.throw, Bind.bind,
                    Except.bind, pure, Except.pure]
              | some b =>
                  simp [if_pos hk, hps, hcond, throw, throwThe, MonadExceptOf.throw,
                    Bind.bind, Except.bind, pure, Except.pure]
        · simp [if_neg hk, throw, throwThe, MonadExceptOf.throw, Bind.bind, Except.bind]

/-- C6.  Configuration errors: with a non-positive keep-count, an
unparsable keep-size, or both matcher options given, the run ends as a
configuration error with exit code 1 for every possible listing — the
decision is taken before any directory I/O — nothing is deleted and the
directory is untouched. -/
theorem config_error_stops_run (mkP mkR : String → Bool → Matcher)
    (ps : String → Option Nat) (fails : String → Bool) (a : Args)
    (listing : List FileEntry)
    (h : (∃ k, a.keep_count = some k ∧ k ≤ 0)
       ∨ (∃ s, a.keep_size = some s ∧ ps s = none)
       ∨ (strTruthy a.match_format = true ∧ strTruthy a.match_regex = true)) :
    prune_files mkP mkR ps fails a listing = .configError 1 ∧
    (prune_files mkP mkR ps fails a listing).deleted = [] ∧
    fsAfter listing (prune_files mkP mkR ps fails a listing) = listing := by
  have herr := checkArgs_error mkP mkR ps a h
  have hpf : prune_files mkP mkR ps fails a listing = .configError 1 := by
    rw [prune_files, herr]
  refine ⟨hpf, ?_, ?_⟩
  · rw [hpf]
    rfl
  · rw [hpf, fsAfter]
    simp [Outcome.deleted]

/-- Concrete run of C6: `keep-count = 0` is rejected with exit code 1
before the listing is looked at. -/
theorem config_error_stops_run_witness :
    prune_files mkNoneMatcher mkNoneMatcher parseSizeFixture (fun _ => false)
        ⟨none, none, false, none, false, some 0, none, false⟩ [entryA, entryB]
      = .configError 1 ∧
    (prune_files mkNoneMatcher mkNoneMatcher parseSizeFixture (fun _ => false)
        ⟨none, none, false, none, false, some 0, none, false⟩ [entryA, entryB]).deleted = [] ∧
    fsAfter [entryA, entryB]
        (prune_files mkNoneMatcher mkNoneMatcher parseSizeFixture (fun _ => false)
          ⟨none, none, false, none, false, some 0, none, false⟩ [entryA, entryB])
      = [entryA, entryB] :=
  config_error_stops_run mkNoneMatcher mkNoneMatcher parseSizeFixture (fun _ => false)
    ⟨none, none, false, none, false, some 0, none, false⟩ [entryA, entryB]
    (Or.inl ⟨0, rfl, le_refl 0⟩)

/-! ## Dry-run frame property (C8) -/

/-- The check phase only copies `dry_run` into the configuration; it takes
no decision on it. -/
theorem checkArgs_set_dry (mkP mkR : String → Bool → Matcher) (ps : String → Option Nat)
    (a : Args) (d : Bool) :
    checkArgs mkP mkR ps { a with dry_run := d }
      = (checkArgs mkP mkR ps a).map fun cfg => { cfg with dry_run := d } := by
  rcases a with ⟨mf, mr, mcs, ob, orv, kc, ks, dr⟩
  unfold checkArgs
  dsimp only
  cases kc with
  | none =>
      cases ks with
      | none =>
          by_cases hc : 1 < (if strTruthy mr then 1 else 0) + (if strTruthy mf then 1 else 0)
          · simp [hc, throw, throwThe, MonadExceptOf.throw, Bind.bind, Except.bind,
              pure, Except.pure, Except.map]
          · simp [hc, throw, throwThe, MonadExceptOf.throw, Bind.bind, Except.bind,
              pure, Except.pure, Except.map]
      | some s =>
          cases hps : ps s with
          | none =>
              simp [hps, throw, throwThe, MonadExceptOf.throw, Bind.bind, Except.bind,
                pure, Except.pure, Except.map]
          | some b =>
              by_cases hc : 1 < (if strTruthy mr then 1 else 0) + (if strTruthy mf then 1 else 0)
              · simp [hps, hc, throw, throwThe, MonadExceptOf.throw, Bind.bind, Except.bind,
                  pure, Except.pure, Except.map]
              · simp [hps, hc, throw, throwThe, MonadExceptOf.throw, Bind.bind, Except.bind,
                  pure, Except.pure, Except.map]
  | some k =>
      by_cases hk : 0 < k
      · simp only [if_pos hk]
        cases ks with
        | none =>
            by_cases hc : 1 < (if strTruthy mr then 1 else 0) + (if strTruthy mf then 1 else 0)
            · simp [hc, throw, throwThe, MonadExceptOf.throw, Bind.bind, Except.bind,
                pure, Except.pure, Except.map]
            · simp [hc, throw, throwThe, MonadExceptOf.throw, Bind.bind, Except.bind,
                pure, Except.pure, Except.map]
        | some s =>
            cases hps : ps s with
            | none =>
                simp [hps, throw, throwThe, MonadExceptOf.throw, Bind.bind, Except.bind,
                  pure, Except.pure, Except.map]
            | some b =>
                by_cases hc : 1 < (if strTruthy mr then 1 else 0) + (if strTruthy mf then 1 else 0)
                · simp [hps, hc, throw, throwThe, MonadExceptOf.throw, Bind.bind, Except.bind,
                    pure, Except.pure, Except.map]
                · simp [hps, hc, throw, throwThe, MonadExceptOf.throw, Bind.bind, Except.bind,
                    pure, Except.pure, Except.map]
      · simp [if_neg hk, throw, throwThe, MonadExceptOf.throw, Bind.bind, Except.bind,
          Except.map]

/-- A successfully checked configuration carries the dry-run flag of the
arguments. -/
theorem checkArgs_dry_eq (mkP mkR : String → Bool → Matcher) (ps : String → Option Nat)
    {a : Args} {cfg : Config} (hc : checkArgs mkP mkR ps a = .ok cfg) :
    cfg.dry_run = a.dry_run := by
  have h := checkArgs_set_dry mkP mkR ps a a.dry_run
  rw [show ({ a with dry_run := a.dry_run } : Args) = a from rfl, hc] at h
  have h2 : cfg = { cfg with dry_run := a.dry_run } := by
    simpa [Except.map] using h
  exact congrArg Config.dry_run h2

/-- The decision pipeline never looks at the dry-run flag. -/
theorem runPipeline_set_dry (cfg : Config) (d : Bool) (listing : List FileEntry) :
    runPipeline { cfg with dry_run := d } listing = runPipeline cfg listing := rfl

/-- Under dry-run every record of the removal loop is skipped. -/
theorem deleteLoop_dry (fails : String → Bool) :
    ∀ l : List PathState, deleteLoop fails true l = ([], none)
  | [] => rfl
  | _ :: rest => by rw [deleteLoop, if_pos rfl]; exact deleteLoop_dry fails rest

/-- C8.  Dry-run frame property: with `--dry-run`, the run reaches the very
same decisions (the full report of excluded / kept / removed records with
their `orderby` values and reasons) as the same invocation without the
flag, nothing is deleted, and the directory contents after the run equal
the contents before. -/
theorem dry_run_is_frame (mkP mkR : String → Bool → Matcher) (ps : String → Option Nat)
    (fails : String → Bool) (a : Args) (listing : List FileEntry)
    (hd : a.dry_run = true) :
    (prune_files mkP mkR ps fails a listing).report?
      = (prune_files mkP mkR ps fails { a with dry_run := false } listing).report? ∧
    (prune_files mkP mkR ps fails a listing).deleted = [] ∧
    fsAfter listing (prune_files mkP mkR ps fails a listing) = listing := by
  have hset := checkArgs_set_dry mkP mkR ps a false
  cases hc : checkArgs mkP mkR ps a with
  | error c =>
      have h2 : checkArgs mkP mkR ps { a with dry_run := false } = .error c := by
        rw [hset, hc]
        rfl
      have h1 : prune_files mkP mkR ps fails a listing = .configError c := by
        rw [prune_files, hc]
      have h3 : prune_files mkP mkR ps fails { a with dry_run := false } listing
          = .configError c := by
        rw [prune_files, h2]
      refine ⟨by rw [h1, h3], by rw [h1]; rfl, ?_⟩
      rw [h1, fsAfter]
      simp [Outcome.deleted]
  | ok cfg =>
      have hcd : cfg.dry_run = true := (checkArgs_dry_eq mkP mkR ps hc).trans hd
      have h2 : checkArgs mkP mkR ps { a with dry_run := false }
          = .ok { cfg with dry_run := false } := by
        rw [hset, hc]
        rfl
      have h1 : prune_files mkP mkR ps fails a listing
          = .ok (runPipeline cfg listing) [] := by
        rw [prune_files, hc]
        dsimp only
        rw [hcd, deleteLoop_dry]
      have h3 : prune_files mkP mkR ps fails { a with dry_run := false } listing
          = (match deleteLoop fails false (runPipeline cfg listing).remove with
             | (ds, none) => Outcome.ok (runPipeline cfg listing) ds
             | (ds, some f) => Outcome.fsError (runPipeline cfg listing) ds f) := by
        rw [prune_files, h2]
        dsimp only
        rw [runPipeline_set_dry]
      refine ⟨?_, by rw [h1]; rfl, ?_⟩
      · rw [h1, h3]
        rcases hdl : deleteLoop fails false (runPipeline cfg listing).remove with ⟨ds, e⟩
        cases e <;> simp [Outcome.report?]
      · rw [h1, fsAfter]
        simp [Outcome.deleted]

/-- Concrete run of C8: a dry run over two files with `keep-count = 1`
reports the same as the real run and leaves both files in place. -/
theorem dry_run_is_frame_witness :
    (prune_files mkNoneMatcher mkNoneMatcher parseSizeFixture (fun _ => true)
        ⟨none, none, false, none, false, some 1, none, true⟩ [entryA, entryB]).report?
      = (prune_files mkNoneMatcher mkNoneMatcher parseSizeFixture (fun _ => true)
        ⟨none, none, false, none, false, some 1, none, false⟩ [entryA, entryB]).report? ∧
    (prune_files mkNoneMatcher mkNoneMatcher parseSizeFixture (fun _ => true)
        ⟨none, none, false, none, false, some 1, none, true⟩ [entryA, entryB]).deleted = [] ∧
    fsAfter [entryA, entryB]
        (prune_files mkNoneMatcher mkNoneMatcher parseSizeFixture (fun _ => true)
          ⟨none, none, false, none, false, some 1, none, true⟩ [entryA, entryB])
      = [entryA, entryB] :=
  dry_run_is_frame mkNoneMatcher mkNoneMatcher parseSizeFixture (fun _ => true)
    ⟨none, none, false, none, false, some 1, none, true⟩ [entryA, entryB] rfl

/-! ## Reason precedence (C4) -/

/-- Decomposing membership in the size limiter's output: each output record
is an input record, marked or not. -/
theorem SizeLimiter.mem_sizeApply {L : SizeLimiter} {files : List PathState} {f : PathState}
    (hf : f ∈ L.apply files) : ∃ g ∈ files, f = g ∨ f = L.markOne g := by
  rw [L.apply_eq] at hf
  rcases List.mem_append.mp hf with hf | hf
  · rcases List.mem_map.mp hf with ⟨g, hg, rfl⟩
    exact ⟨g, List.take_subset _ _ hg, Or.inr rfl⟩
  · exact ⟨f, List.drop_subset _ _ hf, Or.inl rfl⟩

/-- Decomposing membership in the count limiter's output. -/
theorem CountLimiter.mem_countApply {L : CountLimiter} {files : List PathState} {f : PathState}
    (hf : f ∈ L.apply files) : ∃ g ∈ files, f = g ∨ f = L.markOne g := by
  rw [CountLimiter.apply] at hf
  rcases List.mem_append.mp hf with hf | hf
  · rcases List.mem_map.mp hf with ⟨g, hg, rfl⟩
    exact ⟨g, List.take_subset _ _ hg, Or.inr rfl⟩
  · exact ⟨f, List.drop_subset _ _ hf, Or.inl rfl⟩

/-- When keep-count and keep-size are both given and valid, the check phase
configures exactly the count limiter followed by the size limiter. -/
theorem checkArgs_ok_limiters (mkP mkR : String → Bool → Matcher)
    (ps : String → Option Nat) {a : Args} {cfg : Config} {k : Int} {s : String} {b : Nat}
    (hkc : a.keep_count = some k) (hk : 0 < k)
    (hks : a.keep_size = some s) (hps : ps s = some b)
    (hc : checkArgs mkP mkR ps a = .ok cfg) :
    cfg.limiters = [Limiter.count ⟨k.toNat, countReasonStr k⟩,
                    Limiter.size ⟨b, sizeReasonStr s⟩] := by
  by_cases hcond : 1 < (if strTruthy a.match_regex then 1 else 0)
      + (if strTruthy a.match_format then 1 else 0)
  · simp only [checkArgs, hkc, hks, hps, if_pos hk, if_pos hcond, throw, throwThe,
      MonadExceptOf.throw, Bind.bind, Except.bind, pure, Except.pure] at hc
    exact Except.noConfusion hc
  · simp only [checkArgs, hkc, hks, hps, if_pos hk, if_neg hcond, throw, throwThe,
      MonadExceptOf.throw, Bind.bind, Except.bind, pure, Except.pure] at hc
    injection hc with h
    rw [← h]
    rfl

/-- Before the limiters run, every record's reason list is empty. -/
theorem reasons_empty_pre_limiters (cfg : Config) (listing : List FileEntry) :
    ∀ f ∈ orderSort cfg.order_reverse
        ((matchStep cfg.matcher cfg.orderby (nameSort (collectFiles listing))).filter
          fun x => x.is_match), f.prune_reasons = [] := by
  intro f hf
  have h1 := (orderSort_perm _ _).mem_iff.mp hf
  have h2 := List.mem_of_mem_filter h1
  cases hm : cfg.matcher with
  | none =>
      rw [hm] at h2
      simp only [matchStep] at h2
      have h3 := (stableSort_perm _ _).mem_iff.mp h2
      rcases List.mem_map.mp h3 with ⟨e, _, rfl⟩
      rfl
  | some m =>
      rw [hm] at h2
      simp only [matchStep] at h2
      rcases List.mem_map.mp h2 with ⟨g, hg, rfl⟩
      rw [matchOne_reasons]
      have h3 := (stableSort_perm _ _).mem_iff.mp hg
      rcases List.mem_map.mp h3 with ⟨e, _, rfl⟩
      rfl

/-- The two limiters never produce the same reason string. -/
theorem countReason_ne_sizeReason (k : Int) (s : String) :
    countReasonStr k ≠ sizeReasonStr s := by
  intro h
  have h2 : ("keep-count <= " ++ toString k).data = ("keep-size <= " ++ s).data := by
    rw [countReasonStr, sizeReasonStr] at h
    rw [h]
  rw [String.data_append, String.data_append] at h2
  have h3 := congrArg (List.take 6) h2
  rw [List.take_append_of_le_length (by decide),
    List.take_append_of_le_length (by decide)] at h3
  exact absurd h3 (by decide)

/-- C4.  Reason precedence: when both limiters are configured (valid
keep-count and keep-size), a removed record carrying both reasons reports
the count limiter's reason first (`prune_reasons[0]`), because the check
phase installs the count limiter before the size limiter and each limiter
appends. -/
theorem count_reason_reported_first (mkP mkR : String → Bool → Matcher)
    (ps : String → Option Nat) (a : Args) (listing : List FileEntry)
    (k : Int) (s : String) (b : Nat) (cfg : Config)
    (hkc : a.keep_count = some k) (hk : 0 < k)
    (hks : a.keep_size = some s) (hps : ps s = some b)
    (hc : checkArgs mkP mkR ps a = .ok cfg) :
    ∀ f ∈ (runPipeline cfg listing).remove,
      countReasonStr k ∈ f.prune_reasons →
      sizeReasonStr s ∈ f.prune_reasons →
      f.prune_reasons.head? = some (countReasonStr k) := by
  have hlim := checkArgs_ok_limiters mkP mkR ps hkc hk hks hps hc
  have hne := countReason_ne_sizeReason k s
  intro f hf hcr hsr
  have hrem : (runPipeline cfg listing).remove
      = (applyLimiters cfg.limiters (orderSort cfg.order_reverse
          ((matchStep cfg.matcher cfg.orderby (nameSort (collectFiles listing))).filter
            fun x => x.is_match))).filter (fun x => !x.prune_reasons.isEmpty) := rfl
  rw [hrem] at hf
  have hf2 := List.mem_of_mem_filter hf
  rw [hlim] at hf2
  have hf3 : f ∈ SizeLimiter.apply ⟨b, sizeReasonStr s⟩
      (CountLimiter.apply ⟨k.toNat, countReasonStr k⟩
        (orderSort cfg.order_reverse
          ((matchStep cfg.matcher cfg.orderby (nameSort (collectFiles listing))).filter
            fun x => x.is_match))) := hf2
  rcases SizeLimiter.mem_sizeApply hf3 with ⟨g, hg, hfg⟩
  rcases CountLimiter.mem_countApply hg with ⟨g0, hg0, hgg⟩
  have hg0e : g0.prune_reasons = [] := reasons_empty_pre_limiters cfg listing g0 hg0
  rcases hfg with rfl | rfl
  · rcases hgg with rfl | rfl
    · rw [hg0e] at hcr
      exact absurd hcr (List.not_mem_nil _)
    · simp only [CountLimiter.markOne, hg0e, List.nil_append, List.mem_singleton] at hsr
      exact absurd hsr.symm hne
  · rcases hgg with rfl | rfl
    · simp only [SizeLimiter.markOne, hg0e, List.nil_append, List.mem_singleton] at hcr
      exact absurd hcr hne
    · simp only [SizeLimiter.markOne, CountLimiter.markOne, hg0e, List.nil_append]
      rfl

/-- Concrete run of C4: three 100-byte files, `keep-count = 1` and
`keep-size = 150B` — the oldest file collects both reasons and reports the
count limiter's. -/
theorem count_reason_reported_first_witness :
    (⟨"a_1.log", "a_1", 100, "a_1", true,
        [countReasonStr 1, sizeReasonStr "150B"]⟩ : PathState).prune_reasons.head?
      = some (countReasonStr 1) :=
  count_reason_reported_first mkNoneMatcher mkNoneMatcher parseSizeFixture
    ⟨none, none, false, none, false, some 1, some "150B", false⟩
    [entryA, entryB, entryC] 1 "150B" 150
    ⟨[Limiter.count ⟨1, countReasonStr 1⟩, Limiter.size ⟨150, sizeReasonStr "150B"⟩],
      none, none, false, false⟩
    rfl (by decide) rfl rfl rfl
    ⟨"a_1.log", "a_1", 100, "a_1", true, [countReasonStr 1, sizeReasonStr "150B"]⟩
    (by decide) (by decide) (by decide)

/-! ## Deletion failure policy (C10) -/

/-- The removal loop without dry-run deletes in list order up to the first
failing unlink, then stops with that failure: earlier deletions stand,
the failing record and all later ones are untouched. -/
theorem deleteLoop_first_fail (fails : String → Bool) :
    ∀ (l : List PathState) (k : Nat) (hk : k < l.length),
      (∀ f ∈ l.take k, fails f.name = false) →
      fails (l.get ⟨k, hk⟩).name = true →
      deleteLoop fails false l
        = ((l.take k).map PathState.name, some (l.get ⟨k, hk⟩).name)
  | [], k, hk, _, _ => absurd hk (by simp)
  | f :: rest, 0, _, _, hfail => by
      simp only [List.get] at hfail
      simp [deleteLoop, hfail]
  | f :: rest, k + 1, hk, hbefore, hfail => by
      have hof : fails f.name = false := hbefore f (by simp)
      have hrest := deleteLoop_first_fail fails rest k (Nat.lt_of_succ_lt_succ hk)
        (fun g hg => hbefore g (by simp [hg]))
        (by simpa [List.get] using hfail)
      simp [deleteLoop, hof, hrest, List.get]

/-- C10.  Deletion failure policy: in a real (non-dry) run, if the unlink
of the `k`-th remove-group record fails while all earlier unlinks succeed,
the run ends as a filesystem error at exactly that record: the records
before it are the only ones deleted (they are not undone), the failing
record and every later one are not deleted, and the outcome is an error,
never a successful prune. -/
theorem deletion_aborts_on_first_failure (mkP mkR : String → Bool → Matcher)
    (ps : String → Option Nat) (fails : String → Bool)
    (a : Args) (listing : List FileEntry) (cfg : Config) (k : Nat)
    (hc : checkArgs mkP mkR ps a = .ok cfg)
    (hdry : a.dry_run = false)
    (hk : k < (runPipeline cfg listing).remove.length)
    (hbefore : ∀ f ∈ (runPipeline cfg listing).remove.take k, fails f.name = false)
    (hfail : fails ((runPipeline cfg listing).remove.get ⟨k, hk⟩).name = true) :
    prune_files mkP mkR ps fails a listing
      = .fsError (runPipeline cfg listing)
          (((runPipeline cfg listing).remove.take k).map PathState.name)
          ((runPipeline cfg listing).remove.get ⟨k, hk⟩).name := by
  have hcd : cfg.dry_run = false := (checkArgs_dry_eq mkP mkR ps hc).trans hdry
  have hdl := deleteLoop_first_fail fails (runPipeline cfg listing).remove k hk hbefore hfail
  rw [prune_files, hc]
  dsimp only
  rw [hcd, hdl]

/-- Concrete run of C10: `keep-count = 1` over two files marks the older
one for removal; its unlink fails, so the run ends as a filesystem error
with nothing deleted. -/
theorem deletion_aborts_on_first_failure_witness :
    prune_files mkNoneMatcher mkNoneMatcher parseSizeFixture (fun _ => true)
        ⟨none, none, false, none, false, some 1, none, false⟩ [entryA, entryB]
      = .fsError
          (runPipeline ⟨[Limiter.count ⟨1, countReasonStr 1⟩], none, none, false, false⟩
            [entryA, entryB])
          (((runPipeline ⟨[Limiter.count ⟨1, countReasonStr 1⟩], none, none, false, false⟩
              [entryA, entryB]).remove.take 0).map PathState.name)
          ((runPipeline ⟨[Limiter.count ⟨1, countReasonStr 1⟩], none, none, false, false⟩
              [entryA, entryB]).remove.get ⟨0, by decide⟩).name :=
  deletion_aborts_on_first_failure mkNoneMatcher mkNoneMatcher parseSizeFixture
    (fun _ => true) ⟨none, none, false, none, false, some 1, none, false⟩
    [entryA, entryB] ⟨[Limiter.count ⟨1, countReasonStr 1⟩], none, none, false, false⟩ 0
    rfl rfl (by decide) (by decide) rfl
